import Mathlib

/-!
Shallow embedding of `tasks.py`, the release-automation script of the
ludusavi repository, together with proofs about its text processing
(version parsing, changelog extraction, license-path scrubbing), its
translation-file deduplication, its `dist` cleanup, its task surface and
the failure behaviour of its external-command invocations.

Python strings are modelled as `List Char`.  The Python `str` helpers used
by the script (`startswith`, `splitlines`, `replace`, `strip`, `rstrip`,
the substring test `in`) are re-defined below with Python's semantics.
All definitions are structurally recursive so that they evaluate inside
the kernel (`decide` / `rfl`).
-/

set_option autoImplicit false

/-- Python `s.startswith(p)`: `startsWithL p s` is `true` exactly when the
list `p` is a prefix of the list `s`. -/
def startsWithL : List Char → List Char → Bool
  | [], _ => true
  | _ :: _, [] => false
  | p :: ps, c :: cs => p == c && startsWithL ps cs

/-- Python `s.endswith(p)` (used for the `*.ftl` glob): `p` is a suffix of
`s`. -/
def endsWithL (p s : List Char) : Bool :=
  startsWithL p.reverse s.reverse

/-- Boolean membership of a character in a list of characters (used for the
character sets of Python's `strip`). -/
def memB (c : Char) : List Char → Bool
  | [] => false
  | d :: rest => c == d || memB c rest

/-- Python substring test `pat in s` for strings. -/
def containsSub : List Char → List Char → Bool
  | [], pat => startsWithL pat []
  | c :: rest, pat => startsWithL pat (c :: rest) || containsSub rest pat

/-- The line-boundary characters recognised by Python `str.splitlines`
(the ASCII/Latin-1 and Unicode line separators). `\r\n` is handled as a
single boundary by `splitlinesAux` before this set is consulted. -/
def lineBreakChars : List Char :=
  ['\n', '\r', '\x0B', '\x0C', '\x1C', '\x1D', '\x1E', '\x85', '\u2028', '\u2029']

/-- Worker for `splitlines`; `acc` holds the current line reversed. -/
def splitlinesAux : List Char → List Char → List (List Char)
  | [], acc => if acc.isEmpty then [] else [acc.reverse]
  | '\r' :: '\n' :: rest, acc => acc.reverse :: splitlinesAux rest []
  | c :: rest, acc =>
    if memB c lineBreakChars then acc.reverse :: splitlinesAux rest []
    else splitlinesAux rest (c :: acc)

/-- Python `s.splitlines()`. -/
def splitlines (s : List Char) : List (List Char) :=
  splitlinesAux s []

/-- Worker for `pyReplace`.  Python `str.replace` scans left to right and
replaces non-overlapping occurrences; a positive skip counter means we are
inside an already-replaced occurrence and the character is dropped. -/
def pyReplaceAux : List Char → List Char → List Char → Nat → List Char
  | [], _, _, _ => []
  | _ :: rest, old, new, k + 1 => pyReplaceAux rest old new k
  | c :: rest, old, new, 0 =>
    if startsWithL old (c :: rest) && !old.isEmpty then
      new ++ pyReplaceAux rest old new (old.length - 1)
    else
      c :: pyReplaceAux rest old new 0

/-- Python `s.replace(old, new)` for a nonempty pattern `old` (the only
shape used in `tasks.py`, where `old` is `"version = "`). -/
def pyReplace (s old new : List Char) : List Char :=
  pyReplaceAux s old new 0

/-- Python `s.lstrip(chars)`. -/
def pyLStrip (chars s : List Char) : List Char :=
  s.dropWhile (fun ch => memB ch chars)

/-- Python `s.rstrip(chars)`. -/
def pyRStrip (chars s : List Char) : List Char :=
  (s.reverse.dropWhile (fun ch => memB ch chars)).reverse

/-- Python `s.strip(chars)`. -/
def pyStrip (chars s : List Char) : List Char :=
  pyRStrip chars (pyLStrip chars s)

/-- The ASCII whitespace characters stripped by no-argument `str.strip()`
and `str.rstrip()` (the repository's text files contain no non-ASCII
whitespace). -/
def wsChars : List Char := [' ', '\t', '\n', '\r', '\x0B', '\x0C']

/-- The predicate of the loop in `get_version` (`tasks.py` line 18):
`line.startswith("version =")`. -/
def isVersionLine (line : List Char) : Bool :=
  startsWithL ("version =".toList) line

/-- Embedding of `get_version` (`tasks.py` lines 16-21) as a function of the
contents of `Cargo.toml`.  The Python function iterates over
`read_text().splitlines()`, returns
`line.replace("version = ", "").strip('"')` for the first line that starts
with `"version ="`, and raises `RuntimeError` (modelled by `none`) when no
line matches. -/
def get_version (content : List Char) : Option (List Char) :=
  match (splitlines content).find? isVersionLine with
  | some line => some (pyStrip ['"'] (pyReplace line ("version = ".toList) []))
  | none => none

/-- A `Cargo.toml` line of the exact shape `version = "s"`. -/
def versionLine (s : List Char) : List Char :=
  ("version = ".toList) ++ '"' :: (s ++ ['"'])

/-- The line-collecting loop of `latest_changelog` (`tasks.py` lines
269-278): every line that does not start with `"#"` is collected; the first
`"#"` line flips the `header` flag and is skipped; the second `"#"` line
stops the loop. -/
def changelog_lines : List (List Char) → Bool → List (List Char)
  | [], _ => []
  | line :: rest, header =>
    if startsWithL ("#".toList) line then
      if header then [] else changelog_lines rest true
    else
      line :: changelog_lines rest header

/-- Embedding of `latest_changelog` (`tasks.py` lines 265-280) as a function
of the contents of `CHANGELOG.md`: `"\n".join(lines).strip()` over the
collected lines. -/
def latest_changelog (content : List Char) : List Char :=
  pyStrip wsChars (List.intercalate ['\n'] (changelog_lines (splitlines content) false))

/-- A file of the `lang/` directory: (name, byte content). -/
abbrev FileL := List Char × List Char

/-- A file is considered by the deduplication loop of the `lang` task
(`tasks.py` lines 69-75) when it matches the glob `*.ftl` and its name does
not contain `"en-US.ftl"`. -/
def consideredB (f : FileL) : Bool :=
  endsWithL (".ftl".toList) f.1 && !(containsSub f.1 ("en-US.ftl".toList))

/-- Size of the content group a content string belongs to: the number of
considered files of the directory whose content equals `c` (the Python code
builds `mapping : content -> set of paths`; for a directory, whose file
names are distinct, the size of `mapping[c]` is this count). -/
def dupGroupSize (dir : List FileL) (c : List Char) : Nat :=
  (dir.filter (fun g => consideredB g && g.2 == c)).length

/-- The `lang/` directory after the deduplication step of the `lang` task
(`tasks.py` lines 68-80): every considered file whose content group has
size `> 1` is unlinked (the loop `for file in group: file.unlink()` deletes
every member of such a group), every other file survives. -/
def lang_dedup (dir : List FileL) : List FileL :=
  dir.filter (fun f => !(consideredB f && decide (1 < dupGroupSize dir f.2)))

/-- The literal part `C:\Users\` of the regex `C:\\Users\\[^\\]+` used by
the `legal` task (`tasks.py` line 51). -/
def upPat : List Char := ['C', ':', '\\', 'U', 's', 'e', 'r', 's', '\\']

/-- The tail of `upPat` after its initial `C`. -/
def upTail : List Char := [':', '\\', 'U', 's', 'e', 'r', 's', '\\']

/-- Attempt to match the regex `C:\\Users\\[^\\]+` at the head of `s`
(Python `re` matching is greedy, so `[^\\]+` takes the maximal run of
non-backslash characters).  Returns the remainder after the match. -/
def matchUserPath (s : List Char) : Option (List Char) :=
  if startsWithL upPat s then
    match s.drop 9 with
    | [] => none
    | d :: rest => if d == '\\' then none
                   else some ((d :: rest).dropWhile (fun ch => !(ch == '\\')))
  else none

/-- Worker for `scrub`; a positive skip counter means we are inside an
already-replaced match and the character is dropped. -/
def scrubAux : List Char → Nat → List Char
  | [], _ => []
  | _ :: rest, k + 1 => scrubAux rest k
  | c :: rest, 0 =>
    match matchUserPath (c :: rest) with
    | some rest2 => '~' :: scrubAux rest (rest.length - rest2.length)
    | none => c :: scrubAux rest 0

/-- Embedding of `re.sub(r"C:\\Users\\[^\\]+", "~", raw)` from the `legal`
task (`tasks.py` line 51): scan left to right, replace each
non-overlapping match by `~`. -/
def scrub (s : List Char) : List Char :=
  scrubAux s 0

/-- Does `s` contain, at any position, a substring matching
`C:\\Users\\[^\\]+` (a Windows user-profile path `C:\Users\<name>` with a
non-empty `<name>` free of backslashes)? -/
def hasUserPath : List Char → Bool
  | [] => false
  | c :: rest => (matchUserPath (c :: rest)).isSome || hasUserPath rest

/-- The state of the `dist` directory: `none` when it does not exist,
`some files` when it is a directory with the given entries. -/
abbrev DistDir := Option (List (List Char × List Char))

/-- `shutil.rmtree(DIST, ignore_errors=True)` (`tasks.py` line 86),
modelled as a successful removal of the tree. -/
def rmtree_model (_ : DistDir) : DistDir := none

/-- `DIST.mkdir()` (`tasks.py` line 87): creates an empty directory, raises
`FileExistsError` when the path already exists. -/
def mkdir_model (d : DistDir) : Except (List Char) DistDir :=
  match d with
  | some _ => Except.error ("FileExistsError".toList)
  | none => Except.ok (some [])

/-- Embedding of the `clean` task (`tasks.py` lines 83-87) as a function of
the prior state of `dist`. -/
def clean_fs (dist : DistDir) : Except (List Char) DistDir :=
  let dist1 := if dist.isSome then rmtree_model dist else dist
  mkdir_model dist1
/-- Result of running a task in the command-failure projection: the list of
external commands attempted (in order) and the outcome; an `error c` is an
uncaught exception raised by the failed command `c`.  File and text
operations of the tasks, which cannot fail in this projection, are not
recorded. -/
abbrev TaskRes := List String × Except String Unit

/-- `ctx.run(c)` under an environment telling which commands succeed. -/
def runCmdT (env : String → Bool) (c : String) : TaskRes :=
  ([c], if env c then Except.ok () else Except.error c)

/-- Python sequencing: run `a`; when it raises, propagate without reaching
`b`. -/
def andThen (a : TaskRes) (b : Unit → TaskRes) : TaskRes :=
  match a with
  | (t, Except.ok _) => (t ++ (b ()).1, (b ()).2)
  | (t, Except.error e) => (t, Except.error e)

/-- A `try: ... except Exception: pass` block around `a` (`tasks.py` lines
46-49). -/
def catchAll (a : TaskRes) : TaskRes :=
  (a.1, Except.ok ())

/-- Run a list of commands in sequence, stopping at the first failure. -/
def runAll (env : String → Bool) : List String → TaskRes
  | [] => ([], Except.ok ())
  | c :: cs => andThen (runCmdT env c) (fun _ => runAll env cs)

/-- The repository root `ROOT = Path(__file__).parent`, modelled as `.`. -/
def ROOTs : String := "."

/-- The license-bundling command of the `legal` task (`tasks.py` line 47),
for version `v`. -/
def lichkingCmd (v : String) : String :=
  "cargo lichking bundle --file \"" ++ ROOTs ++ "/dist/ludusavi-v" ++ v ++ "-legal.txt\""

/-- The generator command of the `flatpak` task (`tasks.py` line 61), with
its default `generator` argument. -/
def flatpakCmd : String :=
  "python \"/opt/flatpak-cargo-generator.py\" \"" ++ ROOTs ++ "/Cargo.lock\" -o \"" ++ ROOTs ++ "/dist/generated-sources.json\""

/-- The translation-platform command of the `lang` task (`tasks.py` line
66), with its default `jar` argument. -/
def crowdinCmd : String :=
  "java -jar \"/opt/crowdin-cli/crowdin-cli.jar\" pull --export-only-approved"

/-- The sub-commands whose help output `docs_cli` collects (`tasks.py`
lines 103-115). -/
def docsCliCommands : List String :=
  ["--help", "backup --help", "restore --help", "complete --help",
   "backups --help", "find --help", "manifest --help", "cloud --help",
   "wrap --help", "api --help", "schema --help"]

/-- The schema names whose YAML output `docs_schema` collects (`tasks.py`
lines 141-146). -/
def docsSchemaCommands : List String :=
  ["api-input", "api-output", "config", "general-output"]

/-- The external commands run by `docs_cli`. -/
def cliRunCmds : List String :=
  docsCliCommands.map (fun c => "cargo run -- " ++ c)

/-- The external commands run by `docs_schema`. -/
def schemaRunCmds : List String :=
  docsSchemaCommands.map (fun c => "cargo run -- schema --format yaml " ++ c)

/-- The `version` task (`tasks.py` lines 36-38): prints, runs no external
command. -/
def version_t (_ : String → Bool) : TaskRes := ([], Except.ok ())

/-- The `legal` task (`tasks.py` lines 41-56) in the command-failure
projection: the only external command, `cargo lichking bundle`, is wrapped
in `try: ... except Exception: pass`. -/
def legal_t (env : String → Bool) (v : String) : TaskRes :=
  catchAll (runCmdT env (lichkingCmd v))

/-- The `flatpak` task (`tasks.py` lines 59-61). -/
def flatpak_t (env : String → Bool) : TaskRes :=
  runAll env [flatpakCmd]

/-- The `lang` task (`tasks.py` lines 64-80): one external command, then
pure file deduplication. -/
def lang_t (env : String → Bool) : TaskRes :=
  runAll env [crowdinCmd]

/-- The `clean` task (`tasks.py` lines 83-87): no external command. -/
def clean_t : TaskRes := ([], Except.ok ())

/-- The `docs_cli` task (`tasks.py` lines 96-132) in the command-failure
projection. -/
def docs_cli_t (env : String → Bool) : TaskRes :=
  runAll env cliRunCmds

/-- The `docs_schema` task (`tasks.py` lines 135-154) in the
command-failure projection. -/
def docs_schema_t (env : String → Bool) : TaskRes :=
  runAll env schemaRunCmds

/-- The `docs` task (`tasks.py` lines 90-93): `docs_cli(ctx)` then
`docs_schema(ctx)`. -/
def docs_t (env : String → Bool) : TaskRes :=
  andThen (docs_cli_t env) (fun _ => docs_schema_t env)

/-- The `prerelease` task (`tasks.py` lines 157-206) in the command-failure
projection: pure file patching, then `cargo build`, then the task functions
`clean`, `legal`, `flatpak`, `docs` and (when `update_lang`) `lang`. -/
def prerelease_t (env : String → Bool) (update_lang : Bool) (v : String) : TaskRes :=
  andThen (runCmdT env "cargo build") (fun _ =>
  andThen clean_t (fun _ =>
  andThen (legal_t env v) (fun _ =>
  andThen (flatpak_t env) (fun _ =>
  andThen (docs_t env) (fun _ =>
  if update_lang then lang_t env else ([], Except.ok ()))))))

/-- The external commands of the `release` task (`tasks.py` lines 209-218). -/
def releaseCmds (v : String) : List String :=
  ["git commit -m \"Release v" ++ v ++ "\"",
   "git tag v" ++ v ++ " -m \"Release\"",
   "git push",
   "git push origin tag v" ++ v]

/-- The `release` task in the command-failure projection (its `confirm`
prompt is user input, not an external command). -/
def release_t (env : String → Bool) (v : String) : TaskRes :=
  runAll env (releaseCmds v)

/-- The external commands of the `release_flatpak` task (`tasks.py` lines
221-239), with its default `target` argument. -/
def releaseFlatpakCmds (v : String) : List String :=
  ["git checkout master",
   "git pull",
   "git checkout -b release/v" ++ v,
   "git add .",
   "git commit -m \"Update for v" ++ v ++ "\"",
   "git push origin HEAD"]

/-- The `release_flatpak` task in the command-failure projection. -/
def release_flatpak_t (env : String → Bool) (v : String) : TaskRes :=
  runAll env (releaseFlatpakCmds v)

/-- The external commands of the `release_winget` task (`tasks.py` lines
242-262), with its default `target` argument. -/
def releaseWingetCmds (v : String) : List String :=
  ["git checkout master",
   "git pull upstream master",
   "git checkout -b mtkennerly.ludusavi-" ++ v,
   "wingetcreate update mtkennerly.ludusavi --version " ++ v
     ++ " --urls https://github.com/mtkennerly/ludusavi/releases/download/v" ++ v
     ++ "/ludusavi-v" ++ v ++ "-win64.zip https://github.com/mtkennerly/ludusavi/releases/download/v"
     ++ v ++ "/ludusavi-v" ++ v ++ "-win32.zip",
   "winget validate --manifest manifests/m/mtkennerly/ludusavi/" ++ v,
   "git add .",
   "git commit -m \"mtkennerly.ludusavi version " ++ v ++ "\"",
   "git push origin HEAD"]

/-- The `release_winget` task in the command-failure projection. -/
def release_winget_t (env : String → Bool) (v : String) : TaskRes :=
  runAll env (releaseWingetCmds v)
/-- Effects of the documentation tasks, for the effect-trace model used by
the `docs`-composition claim: an external command invocation, a
`mkdir(parents=True)`, or a file write with full content. -/
inductive Effect where
  | runCargo : String → Effect
  | mkdirP : String → Effect
  | writeFile : String → List Char → Effect
deriving DecidableEq

/-- The content written to `docs/cli.md` by `docs_cli` (`tasks.py` lines
117-132), as a function of the stdout `env cmd` of each build command: a
header line, then for each sub-command a blank line, a heading, and the
rstripped stdout lines inside a code fence; each line is written with a
trailing newline. -/
def cliMdContent (env : String → List Char) : List Char :=
  let lines : List (List Char) :=
    ["This is the raw help text for the command line interface.".toList] ++
    docsCliCommands.flatMap (fun c =>
      [[], ("## `" ++ c ++ "`").toList, "```".toList] ++
      (splitlines (env ("cargo run -- " ++ c))).map (fun l => pyRStrip wsChars l) ++
      ["```".toList])
  lines.flatMap (fun l => l ++ ['\n'])

/-- The `docs_cli` task (`tasks.py` lines 96-132) in the effect-trace
model: `fs` is the set of existing directories, `env` maps a command to
its stdout.  The docs directory is created when missing, the build
commands are run in order, and `docs/cli.md` is written once at the end. -/
def docs_cli_tr (env : String → List Char) (fs : List String) : List String × List Effect :=
  let made := if fs.contains "docs" then (fs, ([] : List Effect))
              else ("docs" :: fs, [Effect.mkdirP "docs"])
  (made.1,
   made.2 ++ cliRunCmds.map Effect.runCargo ++ [Effect.writeFile "docs/cli.md" (cliMdContent env)])

/-- The `docs_schema` task (`tasks.py` lines 135-154) in the effect-trace
model: the schema directory is created when missing, and for each schema
name the build command is run and its stripped stdout (plus a newline) is
written to `docs/schema/<name>.yaml`. -/
def docs_schema_tr (env : String → List Char) (fs : List String) : List String × List Effect :=
  let made := if fs.contains "docs/schema" then (fs, ([] : List Effect))
              else ("docs/schema" :: fs, [Effect.mkdirP "docs/schema"])
  (made.1,
   made.2 ++ docsSchemaCommands.flatMap (fun c =>
     [Effect.runCargo ("cargo run -- schema --format yaml " ++ c),
      Effect.writeFile ("docs/schema/" ++ c ++ ".yaml")
        (pyStrip wsChars (env ("cargo run -- schema --format yaml " ++ c)) ++ ['\n'])]))

/-- The `docs` task (`tasks.py` lines 90-93) in the effect-trace model,
transcribed from its body `docs_cli(ctx); docs_schema(ctx)`. -/
def docs_tr (env : String → List Char) (fs : List String) : List String × List Effect :=
  let p := docs_cli_tr env fs
  let q := docs_schema_tr env p.1
  (q.1, p.2 ++ q.2)

/-- Modelled from the spec: running `docs` is running `docs_cli` and then
`docs_schema`, in that order, with no other effects - the state is threaded
through the two and the effect trace is exactly the concatenation of their
traces. -/
def docs_spec_composition (env : String → List Char) (fs : List String) : List String × List Effect :=
  let p := docs_cli_tr env fs
  let q := docs_schema_tr env p.1
  (q.1, p.2 ++ q.2)

/-- A top-level function of `tasks.py` together with whether it carries the
`@task` decorator. -/
structure PyFunc where
  name : String
  isTask : Bool
deriving DecidableEq

/-- The top-level functions of `tasks.py`, in source order, with their
`@task` decoration (`tasks.py` lines 16-280). -/
def tasksPyFuncs : List PyFunc :=
  [⟨"get_version", false⟩,
   ⟨"replace_pattern_in_file", false⟩,
   ⟨"confirm", false⟩,
   ⟨"version", true⟩,
   ⟨"legal", true⟩,
   ⟨"flatpak", true⟩,
   ⟨"lang", true⟩,
   ⟨"clean", true⟩,
   ⟨"docs", true⟩,
   ⟨"docs_cli", true⟩,
   ⟨"docs_schema", true⟩,
   ⟨"prerelease", true⟩,
   ⟨"release", true⟩,
   ⟨"release_flatpak", true⟩,
   ⟨"release_winget", true⟩,
   ⟨"latest_changelog", false⟩]

/-- The user-invocable task surface of the script: the names of the
functions exposed through the `@task` decorator. -/
def taskSurface : List String :=
  (tasksPyFuncs.filter (fun f => f.isTask)).map (fun f => f.name)

/-- The task names listed by the specification. -/
def specTaskNames : List String :=
  ["version", "legal", "flatpak", "lang", "clean", "docs", "docs_cli",
   "docs_schema", "prerelease", "release", "release_flatpak", "release_winget"]
lemma startsWithL_append_self (p t : List Char) : startsWithL p (p ++ t) = true := by
  induction p with
  | nil => rfl
  | cons a ps ih => simp [startsWithL, ih]

lemma startsWithL_nil_right (p : List Char) (h : p ≠ []) : startsWithL p [] = false := by
  cases p with
  | nil => exact absurd rfl h
  | cons a ps => rfl

lemma startsWithL_of_append (x y t : List Char) (h : startsWithL (x ++ y) t = true) :
    startsWithL x t = true := by
  induction x generalizing t with
  | nil => rfl
  | cons a xs ih =>
    cases t with
    | nil => simp [startsWithL] at h
    | cons c cs =>
      simp only [List.cons_append, startsWithL, Bool.and_eq_true] at h ⊢
      exact ⟨h.1, ih cs h.2⟩

lemma startsWithL_append_one (x : List Char) (d : Char) (t : List Char) :
    startsWithL (x ++ [d]) t = true ↔
      startsWithL x t = true ∧ ∃ tl, t.drop x.length = d :: tl := by
  induction x generalizing t with
  | nil =>
    cases t with
    | nil => simp [startsWithL]
    | cons c cs =>
      constructor
      · intro h
        have hdc : d = c := by simpa [startsWithL] using h
        exact ⟨rfl, cs, by simp [hdc]⟩
      · rintro ⟨-, tl, htl⟩
        have htl2 : c :: cs = d :: tl := htl
        injection htl2 with h1 h2
        simp [startsWithL, h1]
  | cons a xs ih =>
    cases t with
    | nil => simp [startsWithL]
    | cons c cs =>
      simp only [List.cons_append, startsWithL, Bool.and_eq_true, List.length_cons,
        List.drop_succ_cons, List.append_eq, ih cs, and_assoc]

lemma startsWithL_concat_cases (old : List Char) (s : List Char) (c : Char)
    (h : startsWithL old (s ++ [c]) = true) : c ∈ old ∨ startsWithL old s = true := by
  induction old generalizing s with
  | nil => right; rfl
  | cons o os ih =>
    cases s with
    | nil =>
      left
      simp only [List.nil_append, startsWithL, Bool.and_eq_true, beq_iff_eq] at h
      simp [h.1]
    | cons a s2 =>
      simp only [List.cons_append, startsWithL, Bool.and_eq_true] at h
      rcases ih s2 h.2 with hc | hsw
      · left; exact List.mem_cons_of_mem _ hc
      · right; simp [startsWithL, h.1, hsw]

lemma containsSub_cons (c : Char) (t pat : List Char) :
    containsSub (c :: t) pat = (startsWithL pat (c :: t) || containsSub t pat) := rfl

lemma containsSub_append_one (old s : List Char) (c : Char) (hold : old ≠ [])
    (hc : ¬ c ∈ old) (hs : containsSub s old = false) :
    containsSub (s ++ [c]) old = false := by
  induction s with
  | nil =>
    show containsSub (c :: []) old = false
    rw [containsSub_cons]
    have h0 : containsSub [] old = false := startsWithL_nil_right old hold
    have hA : startsWithL old [c] = false := by
      cases hsw : startsWithL old [c] with
      | false => rfl
      | true =>
        rcases startsWithL_concat_cases old [] c hsw with hmem | hnil
        · exact absurd hmem hc
        · rw [startsWithL_nil_right old hold] at hnil
          exact absurd hnil (by simp)
    rw [hA, h0]
    rfl
  | cons a s2 ih =>
    rw [containsSub_cons] at hs
    have h1 : startsWithL old (a :: s2) = false := by
      cases hsw : startsWithL old (a :: s2) <;> simp [hsw] at hs ⊢
    have h2 : containsSub s2 old = false := by
      cases hcs : containsSub s2 old <;> simp [hcs] at hs ⊢
    have hA : startsWithL old (a :: (s2 ++ [c])) = false := by
      cases hsw : startsWithL old (a :: (s2 ++ [c])) with
      | false => rfl
      | true =>
        rcases startsWithL_concat_cases old (a :: s2) c hsw with hmem | hsw2
        · exact absurd hmem hc
        · rw [h1] at hsw2
          exact absurd hsw2 (by simp)
    show containsSub (a :: (s2 ++ [c])) old = false
    rw [containsSub_cons, hA, Bool.false_or]
    exact ih h2
lemma pyReplaceAux_skip (old new : List Char) :
    ∀ (x t : List Char), pyReplaceAux (x ++ t) old new x.length = pyReplaceAux t old new 0 := by
  intro x
  induction x with
  | nil => intro t; rfl
  | cons a xs ih =>
    intro t
    show pyReplaceAux (xs ++ t) old new xs.length = pyReplaceAux t old new 0
    exact ih t

lemma pyReplace_append (old t new : List Char) (h : old ≠ []) :
    pyReplace (old ++ t) old new = new ++ pyReplace t old new := by
  cases old with
  | nil => exact absurd rfl h
  | cons o os =>
    have hsw : startsWithL (o :: os) (o :: (os ++ t)) = true :=
      startsWithL_append_self (o :: os) t
    show pyReplaceAux (o :: (os ++ t)) (o :: os) new 0 = _
    rw [pyReplaceAux, hsw]
    simp only [List.isEmpty_cons, Bool.not_false, Bool.and_self, if_true,
      List.length_cons, Nat.add_sub_cancel]
    rw [pyReplaceAux_skip]
    rfl

lemma pyReplace_of_not_contains (s old new : List Char) (h : containsSub s old = false) :
    pyReplace s old new = s := by
  induction s with
  | nil => rfl
  | cons c rest ih =>
    rw [containsSub_cons] at h
    have h1 : startsWithL old (c :: rest) = false := by
      cases hsw : startsWithL old (c :: rest) <;> simp [hsw] at h ⊢
    have h2 : containsSub rest old = false := by
      cases hcs : containsSub rest old <;> simp [hcs] at h ⊢
    show pyReplaceAux (c :: rest) old new 0 = c :: rest
    rw [pyReplaceAux, h1]
    simp only [Bool.false_and, if_false]
    exact congrArg (c :: ·) (ih h2)

lemma dropWhile_eq_self_of (p : Char → Bool) (l : List Char) (h : ∀ x ∈ l, p x = false) :
    l.dropWhile p = l := by
  cases l with
  | nil => rfl
  | cons a t => simp [List.dropWhile_cons, h a (by simp)]

lemma pyStrip_quote (s : List Char) (h : ¬ '"' ∈ s) :
    pyStrip ['"'] ('"' :: (s ++ ['"'])) = s := by
  cases s with
  | nil => rfl
  | cons a s2 =>
    have ha2 : a ≠ '"' := fun hEq => h (by simp [hEq])
    have ha : (a == '"') = false := beq_eq_false_iff_ne.mpr ha2
    have h1 : pyLStrip ['"'] ('"' :: ((a :: s2) ++ ['"'])) = (a :: s2) ++ ['"'] := by
      simp [pyLStrip, List.dropWhile_cons, memB, ha]
    have h2 : pyRStrip ['"'] ((a :: s2) ++ ['"']) = a :: s2 := by
      unfold pyRStrip
      rw [List.reverse_append]
      simp only [List.reverse_cons, List.reverse_nil, List.nil_append, List.singleton_append]
      rw [List.dropWhile_cons]
      simp only [memB, beq_self_eq_true, Bool.true_or, if_true]
      rw [dropWhile_eq_self_of]
      · simp
      · intro x hx
        have hxmem : x ∈ a :: s2 := by
          rcases List.mem_append.mp hx with h1 | h1
          · exact List.mem_cons_of_mem _ (List.mem_reverse.mp h1)
          · simp only [List.mem_singleton] at h1
            simp [h1]
        have hxne : x ≠ '"' := fun hEq => h (hEq ▸ hxmem)
        simp only [memB, Bool.or_false]
        exact beq_eq_false_iff_ne.mpr hxne
    show pyRStrip ['"'] (pyLStrip ['"'] ('"' :: ((a :: s2) ++ ['"']))) = a :: s2
    rw [h1, h2]
lemma startsWithL_false_of_head_ne (p c : Char) (ps cs : List Char) (h : (p == c) = false) :
    startsWithL (p :: ps) (c :: cs) = false := by
  simp [startsWithL, h]

/-- Claim C3, as stated, is falsified by a manifest whose quoted version
string itself contains the substring `version = `: the line
`version = "version = 1"` starts with `version =` and is followed by the
double-quoted string `version = 1`, yet `get_version` returns `1`, because
`line.replace("version = ", "")` deletes every occurrence of the pattern,
not only the leading one. -/
theorem c3_counterexample :
    (splitlines ("version = \"version = 1\"".toList)).find? isVersionLine
        = some (versionLine ("version = 1".toList))
    ∧ ¬ '"' ∈ ("version = 1".toList)
    ∧ get_version ("version = \"version = 1\"".toList) ≠ some ("version = 1".toList)
    ∧ get_version ("version = \"version = 1\"".toList) = some ("1".toList) :=
  ⟨by decide, by decide, by decide, by decide⟩

/-- Claim C3 (amended): for every manifest whose first line starting with
`version =` has the exact shape `version = "s"` with a quote-free `s` that
does not itself contain the substring `version = `, `get_version` returns
exactly `s`, the text between the quotes. -/
theorem c3_get_version_quoted (content s : List Char)
    (hfind : (splitlines content).find? isVersionLine = some (versionLine s))
    (hq : ¬ '"' ∈ s)
    (hv : containsSub s ("version = ".toList) = false) :
    get_version content = some s := by
  unfold get_version
  rw [hfind]
  show some (pyStrip ['"'] (pyReplace (versionLine s) ("version = ".toList) [])) = some s
  congr 1
  unfold versionLine
  rw [pyReplace_append _ _ _ (by decide), List.nil_append]
  have hold10 : ("version = ".toList) = ['v', 'e', 'r', 's', 'i', 'o', 'n', ' ', '=', ' '] := by
    decide
  have hocc : containsSub ('"' :: (s ++ ['"'])) ("version = ".toList) = false := by
    rw [containsSub_cons]
    have hsw : startsWithL ("version = ".toList) ('"' :: (s ++ ['"'])) = false := by
      rw [hold10]
      exact startsWithL_false_of_head_ne _ _ _ _ (by decide)
    rw [hsw, Bool.false_or]
    exact containsSub_append_one _ _ _ (by decide) (by decide) hv
  rw [pyReplace_of_not_contains _ _ _ hocc]
  exact pyStrip_quote s hq

/-- Witness for the amended claim C3 at a concrete manifest. -/
theorem c3_witness :
    get_version ("name = \"app\"\nversion = \"1.2.3\"\n".toList) = some ("1.2.3".toList) :=
  c3_get_version_quoted ("name = \"app\"\nversion = \"1.2.3\"\n".toList) ("1.2.3".toList)
    (by decide) (by decide) (by decide)

/-- Claim C8: `get_version` raises `RuntimeError` (returns `none` in the
embedding) if and only if no line of the manifest starts with
`version =`; otherwise it returns normally. -/
theorem c8_get_version_error_iff (content : List Char) :
    get_version content = none ↔ ∀ line ∈ splitlines content, isVersionLine line = false := by
  have hmatch : get_version content = none ↔
      (splitlines content).find? isVersionLine = none := by
    unfold get_version
    cases hfind : (splitlines content).find? isVersionLine <;> simp
  rw [hmatch, List.find?_eq_none]
  simp [Bool.not_eq_true]

/-- Witness for claim C8 at a concrete manifest without a version line. -/
theorem c8_witness : get_version ("[package]\nname = \"x\"".toList) = none :=
  (c8_get_version_error_iff ("[package]\nname = \"x\"".toList)).mpr (by decide)
lemma changelog_lines_pass (pre rest : List (List Char)) (b : Bool)
    (hpre : ∀ l ∈ pre, startsWithL ("#".toList) l = false) :
    changelog_lines (pre ++ rest) b = pre ++ changelog_lines rest b := by
  induction pre with
  | nil => rfl
  | cons l pre2 ih =>
    have hl : startsWithL ['#'] l = false := hpre l (by simp)
    have ih2 := ih (fun l2 hl2 => hpre l2 (by simp [hl2]))
    simp [changelog_lines, hl, ih2]

/-- Claim C2, as stated, is falsified by a changelog with text before its
first heading: the loop in `latest_changelog` collects every non-heading
line seen before the `header` flag is set, so the text preceding the first
heading is part of the result. -/
theorem c2_counterexample :
    splitlines ("intro\n# A\nbody\n# B\ntail".toList)
        = ["intro".toList, "# A".toList, "body".toList, "# B".toList, "tail".toList]
    ∧ latest_changelog ("intro\n# A\nbody\n# B\ntail".toList) = "intro\nbody".toList
    ∧ latest_changelog ("intro\n# A\nbody\n# B\ntail".toList)
        ≠ pyStrip wsChars (List.intercalate ['\n'] ["body".toList]) :=
  ⟨by decide, by decide, by decide⟩

/-- Claim C2 (amended): for every changelog whose lines split as
`pre ++ [h1] ++ mid ++ [h2] ++ post` with `h1, h2` the first two heading
lines, `latest_changelog` returns the text before the first heading
together with the text strictly between the first two headings
(`pre ++ mid`), joined by newlines and stripped; text after the second
heading never appears. -/
theorem c2_changelog_extraction (content : List Char) (pre mid post : List (List Char))
    (h1 h2 : List Char)
    (hsplit : splitlines content = pre ++ h1 :: (mid ++ h2 :: post))
    (hpre : ∀ l ∈ pre, startsWithL ("#".toList) l = false)
    (hmid : ∀ l ∈ mid, startsWithL ("#".toList) l = false)
    (hh1 : startsWithL ("#".toList) h1 = true)
    (hh2 : startsWithL ("#".toList) h2 = true) :
    latest_changelog content = pyStrip wsChars (List.intercalate ['\n'] (pre ++ mid)) := by
  unfold latest_changelog
  rw [hsplit, changelog_lines_pass pre _ false hpre]
  have hh1b : startsWithL ['#'] h1 = true := hh1
  have hh2b : startsWithL ['#'] h2 = true := hh2
  have e1 : changelog_lines (h1 :: (mid ++ h2 :: post)) false
      = changelog_lines (mid ++ h2 :: post) true := by
    simp [changelog_lines, hh1b]
  have e2 : changelog_lines (h2 :: post) true = [] := by
    simp [changelog_lines, hh2b]
  rw [e1, changelog_lines_pass mid _ true hmid, e2, List.append_nil]

/-- Witness for the amended claim C2 at a concrete changelog. -/
theorem c2_witness :
    latest_changelog ("# v1.0\nnotes\nmore\n# v0.9\nold".toList)
      = pyStrip wsChars
          (List.intercalate ['\n'] (([] : List (List Char)) ++ ["notes".toList, "more".toList])) :=
  c2_changelog_extraction ("# v1.0\nnotes\nmore\n# v0.9\nold".toList)
    [] ["notes".toList, "more".toList] ["old".toList]
    ("# v1.0".toList) ("# v0.9".toList)
    (by decide) (by decide) (by decide) (by decide) (by decide)

lemma mem_lang_dedup_iff (dir : List FileL) (f : FileL) :
    f ∈ lang_dedup dir ↔ f ∈ dir ∧ ¬(consideredB f = true ∧ 1 < dupGroupSize dir f.2) := by
  unfold lang_dedup
  rw [List.mem_filter]
  constructor
  · rintro ⟨hmem, hb⟩
    refine ⟨hmem, ?_⟩
    rintro ⟨hcons, hgt⟩
    simp [hcons, hgt] at hb
  · rintro ⟨hmem, hn⟩
    refine ⟨hmem, ?_⟩
    cases hcons : consideredB f
    · simp [hcons]
    · have hle : ¬ 1 < dupGroupSize dir f.2 := fun hgt => hn ⟨hcons, hgt⟩
      simp [hcons]
      omega

/-- Two distinct `lang/` files with identical content (and a third with
different content, which survives untouched). -/
def exLangDir : List FileL :=
  [("de.ftl".toList, "hello".toList), ("fr.ftl".toList, "hello".toList),
   ("it.ftl".toList, "ciao".toList)]

/-- Claim C1, as stated, is falsified by a directory with two identical
translation files: the loop `for file in group: file.unlink()` deletes
every member of a duplicate group, so zero (not one) files with that
content remain. -/
theorem c1_counterexample :
    (exLangDir.map Prod.fst).Nodup
    ∧ dupGroupSize exLangDir ("hello".toList) = 2
    ∧ ((lang_dedup exLangDir).filter (fun f => f.2 == "hello".toList)).length = 0
    ∧ ¬ ((lang_dedup exLangDir).filter (fun f => f.2 == "hello".toList)).length = 1 :=
  ⟨by decide, by decide, by decide, by decide⟩

/-- Claim C1 (amended): for every content group of size at least two among
the considered translation files, the deduplication step removes every
file of the group, so no considered file with that content remains. -/
theorem c1_lang_dedup_removes_all (dir : List FileL) (c : List Char)
    (_hnd : (dir.map Prod.fst).Nodup) (h2 : 2 ≤ dupGroupSize dir c) :
    ((lang_dedup dir).filter (fun f => consideredB f && f.2 == c)).length = 0 := by
  rw [List.length_eq_zero, List.eq_nil_iff_forall_not_mem]
  intro f hf
  rw [List.mem_filter] at hf
  obtain ⟨hdedup, hcond⟩ := hf
  rcases (mem_lang_dedup_iff dir f).mp hdedup with ⟨hmem, hkeep⟩
  apply hkeep
  simp only [Bool.and_eq_true, beq_iff_eq] at hcond
  refine ⟨hcond.1, ?_⟩
  rw [hcond.2]
  omega

/-- Witness for the amended claim C1 at a concrete directory. -/
theorem c1_witness :
    ((lang_dedup exLangDir).filter
        (fun f => consideredB f && f.2 == "hello".toList)).length = 0 :=
  c1_lang_dedup_removes_all exLangDir ("hello".toList) (by decide) (by decide)

/-- Claim C9: the deduplication step only ever unlinks a considered file
(`*.ftl`, name not containing `en-US.ftl`) that belongs to a
duplicate-content group of size at least two; in particular it never
deletes a file whose name contains `en-US.ftl`, and never deletes a file
whose content is shared by no other considered file. -/
theorem c9_lang_dedup_only_duplicates (dir : List FileL) (f : FileL)
    (_hnd : (dir.map Prod.fst).Nodup) (hmem : f ∈ dir) (hdel : f ∉ lang_dedup dir) :
    consideredB f = true
    ∧ containsSub f.1 ("en-US.ftl".toList) = false
    ∧ 2 ≤ dupGroupSize dir f.2 := by
  have hcond : consideredB f = true ∧ 1 < dupGroupSize dir f.2 := by
    by_contra hnc
    exact hdel ((mem_lang_dedup_iff dir f).mpr ⟨hmem, hnc⟩)
  refine ⟨hcond.1, ?_, by omega⟩
  have hc := hcond.1
  unfold consideredB at hc
  simp only [Bool.and_eq_true, Bool.not_eq_true'] at hc
  exact hc.2

/-- Witness for claim C9 at a concrete deleted file. -/
theorem c9_witness :
    consideredB (("de.ftl".toList, "hello".toList) : FileL) = true
    ∧ containsSub ("de.ftl".toList) ("en-US.ftl".toList) = false
    ∧ 2 ≤ dupGroupSize exLangDir ("hello".toList) :=
  c9_lang_dedup_only_duplicates exLangDir ("de.ftl".toList, "hello".toList)
    (by decide) (by decide) (by decide)
lemma dropWhile_length_le (p : Char → Bool) : ∀ (l : List Char),
    (l.dropWhile p).length ≤ l.length := by
  intro l
  induction l with
  | nil => exact Nat.le_refl 0
  | cons a t ih =>
    rw [List.dropWhile_cons]
    cases hpa : p a with
    | true => simp only [if_true]; exact Nat.le_succ_of_le ih
    | false => simp

lemma dropWhile_eq_drop_len (p : Char → Bool) : ∀ (l : List Char),
    l.dropWhile p = l.drop ((l.takeWhile p).length) := by
  intro l
  induction l with
  | nil => rfl
  | cons a t ih =>
    rw [List.dropWhile_cons, List.takeWhile_cons]
    cases hpa : p a with
    | true => simpa using ih
    | false => simp

lemma matchUserPath_eq_some_iff (t r : List Char) :
    matchUserPath t = some r ↔
      startsWithL upPat t = true ∧ ∃ d tl, t.drop 9 = d :: tl ∧ (d == '\\') = false ∧
        r = (d :: tl).dropWhile (fun ch => !(ch == '\\')) := by
  unfold matchUserPath
  split
  next hsw =>
    split
    next hnil => simp [hnil, hsw]
    next d tl hd =>
      split
      next hdb =>
        have hdd : d = '\\' := by simpa using hdb
        simp [hsw, hd, hdb, hdd]
      next hdb =>
        have hdb2 : (d == '\\') = false := by
          cases hb : (d == '\\') with
          | false => rfl
          | true => exact absurd hb hdb
        constructor
        · intro h2
          exact ⟨hsw, d, tl, hd, hdb2, (Option.some.inj h2).symm⟩
        · rintro ⟨-, d1, tl1, hd1, hdb1, hr1⟩
          rw [hd] at hd1
          injection hd1 with e1 e2
          subst e1
          subst e2
          rw [hr1]
  next hsw =>
    have hsw2 : startsWithL upPat t = false := by
      cases hb : startsWithL upPat t with
      | false => rfl
      | true => exact absurd hb hsw
    simp [hsw2]

lemma matchUserPath_some_len (c : Char) (rest r2 : List Char)
    (h : matchUserPath (c :: rest) = some r2) : r2.length ≤ rest.length := by
  obtain ⟨-, d, tl, hd, -, hr⟩ := (matchUserPath_eq_some_iff _ _).mp h
  have hd8 : rest.drop 8 = d :: tl := hd
  have h1 : r2.length ≤ (d :: tl).length := by
    rw [hr]; exact dropWhile_length_le _ _
  have h2 : (d :: tl).length ≤ rest.length := by
    rw [← hd8, List.length_drop]
    omega
  omega

lemma matchUserPath_some_drop (c : Char) (rest r2 : List Char)
    (h : matchUserPath (c :: rest) = some r2) : ∃ m, r2 = rest.drop m := by
  obtain ⟨-, d, tl, hd, -, hr⟩ := (matchUserPath_eq_some_iff _ _).mp h
  have hd8 : rest.drop 8 = d :: tl := hd
  refine ⟨8 + ((d :: tl).takeWhile (fun ch => !(ch == '\\'))).length, ?_⟩
  rw [hr, dropWhile_eq_drop_len, ← hd8, List.drop_drop]

lemma scrubAux_skip : ∀ (x t : List Char), scrubAux (x ++ t) x.length = scrubAux t 0 := by
  intro x
  induction x with
  | nil => intro t; rfl
  | cons a xs ih =>
    intro t
    show scrubAux (xs ++ t) xs.length = scrubAux t 0
    exact ih t

lemma scrub_cons_some (c : Char) (rest r2 : List Char)
    (h : matchUserPath (c :: rest) = some r2) :
    scrub (c :: rest) = '~' :: scrub r2 := by
  obtain ⟨m, hm⟩ := matchUserPath_some_drop c rest r2 h
  show scrubAux (c :: rest) 0 = '~' :: scrubAux r2 0
  have e : scrubAux (c :: rest) 0
      = match matchUserPath (c :: rest) with
        | some rest2 => '~' :: scrubAux rest (rest.length - rest2.length)
        | none => c :: scrubAux rest 0 := rfl
  rw [e, h]
  show '~' :: scrubAux rest (rest.length - r2.length) = '~' :: scrubAux r2 0
  congr 1
  by_cases hm2 : m ≤ rest.length
  · have hr : rest.take m ++ r2 = rest := by rw [hm]; exact List.take_append_drop m rest
    have hlen : rest.length - r2.length = (rest.take m).length := by
      rw [hm, List.length_drop, List.length_take]
      omega
    rw [hlen]
    calc scrubAux rest ((rest.take m).length)
        = scrubAux (rest.take m ++ r2) ((rest.take m).length) := by rw [hr]
      _ = scrubAux r2 0 := scrubAux_skip _ _
  · have hr2 : r2 = [] := by rw [hm]; exact List.drop_eq_nil_of_le (by omega)
    subst hr2
    simp only [List.length_nil, Nat.sub_zero]
    have := scrubAux_skip rest []
    rw [List.append_nil] at this
    exact this
lemma scrub_cons_none (c : Char) (rest : List Char)
    (h : matchUserPath (c :: rest) = none) :
    scrub (c :: rest) = c :: scrub rest := by
  show scrubAux (c :: rest) 0 = c :: scrubAux rest 0
  have e : scrubAux (c :: rest) 0
      = match matchUserPath (c :: rest) with
        | some rest2 => '~' :: scrubAux rest (rest.length - rest2.length)
        | none => c :: scrubAux rest 0 := rfl
  rw [e, h]

lemma startsWithL_cons_elim (p : Char) (ps t : List Char)
    (h : startsWithL (p :: ps) t = true) :
    ∃ tl, t = p :: tl ∧ startsWithL ps tl = true := by
  cases t with
  | nil => simp [startsWithL] at h
  | cons a tl =>
    simp only [startsWithL, Bool.and_eq_true, beq_iff_eq] at h
    exact ⟨tl, by simp [h.1.symm], h.2⟩

lemma scrub_keeps (r : List Char) : ∀ (x : List Char), ¬ '~' ∈ x →
    startsWithL x (scrub r) = true → startsWithL x r = true := by
  induction r with
  | nil =>
    intro x hx h
    rw [show scrub [] = [] from rfl] at h
    cases x with
    | nil => rfl
    | cons a xs => simp [startsWithL] at h
  | cons c rest ih =>
    intro x hx h
    cases hm : matchUserPath (c :: rest) with
    | some r2 =>
      rw [scrub_cons_some c rest r2 hm] at h
      cases x with
      | nil => rfl
      | cons a xs =>
        simp only [startsWithL, Bool.and_eq_true, beq_iff_eq] at h
        exact absurd (by simp [h.1]) hx
    | none =>
      rw [scrub_cons_none c rest hm] at h
      cases x with
      | nil => rfl
      | cons a xs =>
        simp only [startsWithL, Bool.and_eq_true] at h ⊢
        exact ⟨h.1, ih xs (fun hmem => hx (List.mem_cons_of_mem _ hmem)) h.2⟩

lemma scrub_markers (r : List Char) : ∀ (x : List Char), ¬ '~' ∈ x →
    startsWithL (x ++ ['~']) (scrub r) = true →
    startsWithL x r = true ∧
      (matchUserPath (r.drop x.length) ≠ none
        ∨ startsWithL ['~'] (r.drop x.length) = true) := by
  induction r with
  | nil =>
    intro x hx h
    rw [show scrub [] = [] from rfl] at h
    exfalso
    cases x <;> simp [startsWithL] at h
  | cons c rest ih =>
    intro x hx h
    cases hm : matchUserPath (c :: rest) with
    | some r2 =>
      rw [scrub_cons_some c rest r2 hm] at h
      cases x with
      | nil =>
        refine ⟨rfl, Or.inl ?_⟩
        show matchUserPath ((c :: rest).drop 0) ≠ none
        rw [List.drop_zero, hm]
        simp
      | cons a xs =>
        simp only [List.cons_append, startsWithL, Bool.and_eq_true, beq_iff_eq] at h
        exact absurd (by simp [h.1]) hx
    | none =>
      rw [scrub_cons_none c rest hm] at h
      cases x with
      | nil =>
        refine ⟨rfl, Or.inr ?_⟩
        simp only [List.nil_append, startsWithL, Bool.and_eq_true, beq_iff_eq] at h
        show startsWithL ['~'] ((c :: rest).drop 0) = true
        rw [List.drop_zero]
        simp only [startsWithL, Bool.and_eq_true, beq_iff_eq]
        exact ⟨h.1, trivial⟩
      | cons a xs =>
        simp only [List.cons_append, startsWithL, Bool.and_eq_true] at h
        obtain ⟨hac, h2⟩ := h
        obtain ⟨hsw, hrest⟩ := ih xs (fun hmem => hx (List.mem_cons_of_mem _ hmem)) h2
        refine ⟨?_, ?_⟩
        · simp only [startsWithL, Bool.and_eq_true]
          exact ⟨hac, hsw⟩
        · show matchUserPath ((c :: rest).drop (xs.length + 1)) ≠ none
              ∨ startsWithL ['~'] ((c :: rest).drop (xs.length + 1)) = true
          rw [List.drop_succ_cons]
          exact hrest

lemma matchUserPath_cons_of (c : Char) (rest : List Char) (d : Char) (tl : List Char)
    (hc : c = 'C') (hsw : startsWithL upTail rest = true)
    (hd : rest.drop 8 = d :: tl) (hdb : (d == '\\') = false) :
    matchUserPath (c :: rest) ≠ none := by
  have hfull : startsWithL upPat (c :: rest) = true := by
    subst hc
    show startsWithL ('C' :: upTail) ('C' :: rest) = true
    simp [startsWithL, hsw]
  have : matchUserPath (c :: rest)
      = some ((d :: tl).dropWhile (fun ch => !(ch == '\\'))) := by
    rw [matchUserPath_eq_some_iff]
    exact ⟨hfull, d, tl, hd, hdb, rfl⟩
  rw [this]
  simp

lemma matchUserPath_scrub_none (c : Char) (rest : List Char)
    (h : matchUserPath (c :: rest) = none) :
    matchUserPath (c :: scrub rest) = none := by
  cases hm : matchUserPath (c :: scrub rest) with
  | none => rfl
  | some r2 =>
    exfalso
    obtain ⟨hsw, d, tl, hd, hdb, -⟩ := (matchUserPath_eq_some_iff _ _).mp hm
    have hcc : c = 'C' ∧ startsWithL upTail (scrub rest) = true := by
      have hsw2 : startsWithL ('C' :: upTail) (c :: scrub rest) = true := hsw
      simp only [startsWithL, Bool.and_eq_true, beq_iff_eq] at hsw2
      exact ⟨hsw2.1.symm, hsw2.2⟩
    have hd8 : (scrub rest).drop 8 = d :: tl := hd
    have hswd : startsWithL (upTail ++ [d]) (scrub rest) = true := by
      rw [startsWithL_append_one]
      exact ⟨hcc.2, tl, hd8⟩
    by_cases hdt : d = '~'
    · subst hdt
      obtain ⟨hswr, hdis⟩ := scrub_markers rest upTail (by decide) hswd
      rcases hdis with hne | hsw2
      · cases hmm : matchUserPath (rest.drop upTail.length) with
        | none => exact hne hmm
        | some r4 =>
          obtain ⟨hsw3, -⟩ := (matchUserPath_eq_some_iff _ _).mp hmm
          obtain ⟨tl3, htl3, -⟩ :=
            startsWithL_cons_elim 'C' upTail (rest.drop upTail.length) hsw3
          exact matchUserPath_cons_of c rest 'C' tl3 hcc.1 hswr htl3 (by decide) h
      · obtain ⟨tl4, htl4, -⟩ :=
          startsWithL_cons_elim '~' [] (rest.drop upTail.length) hsw2
        exact matchUserPath_cons_of c rest '~' tl4 hcc.1 hswr htl4 (by decide) h
    · have hk := scrub_keeps rest (upTail ++ [d])
        (by
          intro hmem
          rcases List.mem_append.mp hmem with h1 | h1
          · exact absurd h1 (by decide)
          · have h2 : '~' = d := by simpa using h1
            exact hdt h2.symm) hswd
      rw [startsWithL_append_one] at hk
      obtain ⟨hswt, tl2, hd2⟩ := hk
      exact matchUserPath_cons_of c rest d tl2 hcc.1 hswt hd2 hdb h
lemma matchUserPath_cons_ne_C (c : Char) (u : List Char) (h : ('C' == c) = false) :
    matchUserPath (c :: u) = none := by
  cases hm : matchUserPath (c :: u) with
  | none => rfl
  | some r =>
    obtain ⟨hsw, -⟩ := (matchUserPath_eq_some_iff _ _).mp hm
    have hsw2 : startsWithL ('C' :: upTail) (c :: u) = true := hsw
    simp only [startsWithL, Bool.and_eq_true] at hsw2
    rw [h] at hsw2
    exact absurd hsw2.1 (by simp)

/-- Claim C10: after the `legal` task rewrites the bundled license text
with `re.sub(r"C:\\Users\\[^\\]+", "~", raw)`, the result contains no
substring matching a Windows user-profile path `C:\Users\<name>` with a
non-empty backslash-free `<name>`: every occurrence has been replaced by
`~`, and the replacement never creates a new occurrence. -/
theorem c10_scrub_no_user_path (raw : List Char) : hasUserPath (scrub raw) = false := by
  suffices H : ∀ (n : Nat) (r : List Char), r.length ≤ n → hasUserPath (scrub r) = false by
    exact H raw.length raw (Nat.le_refl _)
  intro n
  induction n with
  | zero =>
    intro r hr
    have hnil : r = [] := List.eq_nil_of_length_eq_zero (Nat.le_zero.mp hr)
    subst hnil
    rfl
  | succ n ih =>
    intro r hr
    cases r with
    | nil => rfl
    | cons c rest =>
      cases hm : matchUserPath (c :: rest) with
      | some r2 =>
        rw [scrub_cons_some c rest r2 hm]
        have hlen : r2.length ≤ n := by
          have h1 := matchUserPath_some_len c rest r2 hm
          have h2 : rest.length + 1 ≤ n + 1 := by simpa using hr
          omega
        have hih := ih r2 hlen
        have hmup : matchUserPath ('~' :: scrub r2) = none :=
          matchUserPath_cons_ne_C '~' (scrub r2) (by decide)
        show ((matchUserPath ('~' :: scrub r2)).isSome || hasUserPath (scrub r2)) = false
        rw [hmup, hih]
        rfl
      | none =>
        rw [scrub_cons_none c rest hm]
        have hih := ih rest (by
          have h2 : rest.length + 1 ≤ n + 1 := by simpa using hr
          omega)
        have hmup := matchUserPath_scrub_none c rest hm
        show ((matchUserPath (c :: scrub rest)).isSome || hasUserPath (scrub rest)) = false
        rw [hmup, hih]
        rfl
/-- Claim C7: after the `clean` task, `dist` exists and is empty, both when
it existed beforehand with any contents and when it did not exist. -/
theorem c7_clean_dist_empty (dist : DistDir) : clean_fs dist = Except.ok (some []) := by
  cases dist <;> rfl

/-- Claim C5: the user-invocable task surface of `tasks.py` is exactly the
twelve names of the specification, and no other top-level function carries
the `@task` decorator. -/
theorem c5_task_surface :
    taskSurface = specTaskNames
    ∧ ∀ f ∈ tasksPyFuncs, (f.isTask = true ↔ f.name ∈ specTaskNames) := by
  constructor
  · rfl
  · decide

/-- Claim C6: running the `docs` task is exactly running `docs_cli` and
then `docs_schema`, in that order, with no other effects: in the
effect-trace model the directory state is threaded through the two
sub-tasks and the effect trace of `docs` is precisely the concatenation of
their traces, and in the command-failure model `docs` is exactly the
sequential composition of `docs_cli` and `docs_schema`. -/
theorem c6_docs_is_cli_then_schema :
    (∀ (env : String → List Char) (fs : List String),
      docs_tr env fs = docs_spec_composition env fs)
    ∧ (∀ (env4 : String → Bool),
      docs_t env4 = andThen (docs_cli_t env4) (fun _ => docs_schema_t env4)) :=
  ⟨fun _ _ => rfl, fun _ => rfl⟩

lemma andThen_ok (a : TaskRes) (b : Unit → TaskRes) :
    (andThen a b).2 = Except.ok () ↔ (a.2 = Except.ok () ∧ (b ()).2 = Except.ok ()) := by
  obtain ⟨t, r⟩ := a
  cases r with
  | ok u =>
    cases u
    simp [andThen]
  | error e =>
    simp [andThen]

lemma runCmdT_ok (env : String → Bool) (c : String) :
    (runCmdT env c).2 = Except.ok () ↔ env c = true := by
  cases h : env c <;> simp [runCmdT, h]

lemma runAll_ok (env : String → Bool) : ∀ (cs : List String),
    (runAll env cs).2 = Except.ok () ↔ ∀ c ∈ cs, env c = true := by
  intro cs
  induction cs with
  | nil => simp [runAll]
  | cons c cs2 ih =>
    show (andThen (runCmdT env c) (fun _ => runAll env cs2)).2 = Except.ok () ↔ _
    rw [andThen_ok, runCmdT_ok, ih]
    simp
/-- An environment in which exactly the license-bundling command fails. -/
def envNoLichking (v : String) : String → Bool :=
  fun c => !(c == lichkingCmd v)

/-- Claim C4, as stated, is falsified by the `prerelease` task: `prerelease`
invokes the license-bundling command (through its call to `legal`), and
when that command fails the failure is caught by the `try/except` inside
`legal`, so it does not propagate out of `prerelease` - `prerelease`
completes although one of its invoked external commands failed. -/
theorem c4_counterexample :
    envNoLichking "1.0.0" (lichkingCmd "1.0.0") = false
    ∧ lichkingCmd "1.0.0" ∈ (prerelease_t (envNoLichking "1.0.0") true "1.0.0").1
    ∧ (prerelease_t (envNoLichking "1.0.0") true "1.0.0").2 = Except.ok () :=
  ⟨by decide, by decide, by rfl⟩

/-- Claim C4 (amended): a failure of the license-bundling command
`cargo lichking bundle` is caught and silently ignored wherever `legal`
runs - both in the `legal` task itself and inside `prerelease`, which
calls `legal` - and no other failure of an invoked external command is
caught in any task: every task other than `legal` completes exactly when
all its invoked external commands other than the license-bundling one
succeed, and otherwise the first such failure propagates out uncaught. -/
theorem c4_command_failure_behaviour (env : String → Bool) (v : String) (update_lang : Bool) :
    ((legal_t env v).2 = Except.ok () ∧ (legal_t env v).1 = [lichkingCmd v])
    ∧ (version_t env).2 = Except.ok ()
    ∧ clean_t.2 = Except.ok ()
    ∧ ((flatpak_t env).2 = Except.ok () ↔ env flatpakCmd = true)
    ∧ ((lang_t env).2 = Except.ok () ↔ env crowdinCmd = true)
    ∧ ((docs_cli_t env).2 = Except.ok () ↔ ∀ c ∈ cliRunCmds, env c = true)
    ∧ ((docs_schema_t env).2 = Except.ok () ↔ ∀ c ∈ schemaRunCmds, env c = true)
    ∧ ((docs_t env).2 = Except.ok () ↔ ∀ c ∈ cliRunCmds ++ schemaRunCmds, env c = true)
    ∧ ((prerelease_t env update_lang v).2 = Except.ok () ↔
        (env "cargo build" = true ∧ env flatpakCmd = true
          ∧ (∀ c ∈ cliRunCmds ++ schemaRunCmds, env c = true)
          ∧ (update_lang = true → env crowdinCmd = true)))
    ∧ ((release_t env v).2 = Except.ok () ↔ ∀ c ∈ releaseCmds v, env c = true)
    ∧ ((release_flatpak_t env v).2 = Except.ok () ↔ ∀ c ∈ releaseFlatpakCmds v, env c = true)
    ∧ ((release_winget_t env v).2 = Except.ok () ↔ ∀ c ∈ releaseWingetCmds v, env c = true) := by
  refine ⟨⟨rfl, rfl⟩, rfl, rfl, ?_, ?_, ?_, ?_, ?_, ?_, ?_, ?_, ?_⟩
  · unfold flatpak_t
    rw [runAll_ok]
    simp
  · unfold lang_t
    rw [runAll_ok]
    simp
  · unfold docs_cli_t
    exact runAll_ok env cliRunCmds
  · unfold docs_schema_t
    exact runAll_ok env schemaRunCmds
  · unfold docs_t docs_cli_t docs_schema_t
    rw [andThen_ok, runAll_ok, runAll_ok]
    exact (List.forall_mem_append).symm
  · unfold prerelease_t
    simp only [andThen_ok, runCmdT_ok, runAll_ok, clean_t, legal_t, catchAll, flatpak_t,
      docs_t, docs_cli_t, docs_schema_t, lang_t, List.forall_mem_append]
    cases update_lang with
    | false =>
      simp only [Bool.false_eq_true, false_implies, and_true, if_false]
      simp
    | true =>
      simp only [if_true, true_implies]
      simp [runAll_ok]
  · unfold release_t
    exact runAll_ok env (releaseCmds v)
  · unfold release_flatpak_t
    exact runAll_ok env (releaseFlatpakCmds v)
  · unfold release_winget_t
    exact runAll_ok env (releaseWingetCmds v)

/-- Witness for the amended claim C4 at a concrete failing environment:
the `legal` task still completes, after attempting the bundling command. -/
theorem c4_witness :
    ((legal_t (fun _ => false) "0.1.0").2 = Except.ok ()
      ∧ (legal_t (fun _ => false) "0.1.0").1 = [lichkingCmd "0.1.0"]) :=
  (c4_command_failure_behaviour (fun _ => false) "0.1.0" true).1
